import Mathlib

/-!
Verification of the med-calculator product/category application
(`src/src/App.tsx`).

The component state is a list of product records and a list of category
labels.  The aggregation `useMemo` (lines 91-107) computes the total
revenue and per-category rows; `addRow` / `removeRow` / `updateRow` /
`addCategory` / `resetAll` are the state transitions; `loadLS` / `saveLS`
wrap browser local storage.

Modelling choices:
* JavaScript numbers are modelled as exact rationals `ℚ`, with an extra
  `NaN` marker (`NumVal.nan`) so that the coercion `Number(x) || 0`
  (non-numeric becomes zero) is represented faithfully by `NumVal.orZero`.
* The JavaScript `Map` (insertion-ordered) is modelled as an association
  list: `mapSet` updates an existing key in place and appends new keys.
* `Array.prototype.sort` is stable per the ECMAScript specification; the
  comparator `(a, b) => b.sum - a.sum` orders by `sum` descending.  This
  is modelled by Mathlib's stable `List.insertionSort` with the relation
  `rowLE a b := b.sum ≤ a.sum`.
* The blocking `confirm` dialog of `resetAll` is an external boolean
  input, passed as an argument.
* `localStorage` is a partial map `String → Option String`, and
  `JSON.parse` (which may throw, caught by the `try`) is an arbitrary
  function `String → Option α`; `none` models a parse failure.
-/

namespace MedCalc

/-- A JavaScript number: a finite numeric value, or NaN coming from
non-numeric input. -/
inductive NumVal where
  | num (q : ℚ)
  | nan
deriving DecidableEq

/-- The coercion `Number(x) || 0` from App.tsx line 95: NaN (non-numeric)
becomes zero, numeric values pass through (`0 || 0` is `0`). -/
def NumVal.orZero : NumVal → ℚ
  | .num q => q
  | .nan => 0

/-- A product record (`type Product`, App.tsx lines 37-43); an empty
`category` string means "unset". -/
structure Product where
  id : String
  name : String
  qty : NumVal
  price : NumVal
  category : String
deriving DecidableEq

/-- The per-product line total `(Number(p.qty) || 0) * (Number(p.price) || 0)`
(App.tsx line 95). -/
def lineTotal (p : Product) : ℚ :=
  p.qty.orZero * p.price.orZero

/-- Lookup (`Map.get`) on the insertion-ordered association list. -/
def mapGet (m : List (String × ℚ)) (k : String) : Option ℚ :=
  match m with
  | [] => none
  | (k₀, v₀) :: rest => if k₀ = k then some v₀ else mapGet rest k

/-- Update (`Map.set`) on the insertion-ordered association list: an existing key is
updated in place, a new key is appended at the end. -/
def mapSet (m : List (String × ℚ)) (k : String) (v : ℚ) : List (String × ℚ) :=
  match m with
  | [] => [(k, v)]
  | (k₀, v₀) :: rest => if k₀ = k then (k, v) :: rest else (k₀, v₀) :: mapSet rest k v

/-- One iteration of the aggregation loop (App.tsx lines 94-99): the line
total is always added to the running total; products with an empty category
are skipped when building the per-category map
(`map.set(p.category, (map.get(p.category) ?? 0) + sum)`). -/
def stepAgg (acc : ℚ × List (String × ℚ)) (p : Product) : ℚ × List (String × ℚ) :=
  let s := lineTotal p
  if p.category = "" then (acc.1 + s, acc.2)
  else (acc.1 + s, mapSet acc.2 p.category ((mapGet acc.2 p.category).getD 0 + s))

/-- The aggregation loop of the `useMemo` (App.tsx lines 92-99), started
from `total = 0` and an empty map. -/
def aggregate (ps : List Product) : ℚ × List (String × ℚ) :=
  ps.foldl stepAgg (0, [])

/-- The `totalSum` returned by the `useMemo` (App.tsx line 106). -/
def totalSum (ps : List Product) : ℚ :=
  (aggregate ps).1

/-- A summary row `{cat, sum, share}` (App.tsx lines 100-104). -/
structure Row where
  cat : String
  sum : ℚ
  share : ℚ
deriving DecidableEq

/-- Building the unsorted row array from the map entries (App.tsx lines
100-104): `share = total > 0 ? (sum / total) * 100 : 0`. -/
def mkRows (total : ℚ) (m : List (String × ℚ)) : List Row :=
  m.map (fun e => ⟨e.1, e.2, if 0 < total then e.2 / total * 100 else 0⟩)

/-- The row array before the sort (`out` at App.tsx line 104). -/
def preRows (ps : List Product) : List Row :=
  mkRows (totalSum ps) (aggregate ps).2

/-- The sort relation induced by the comparator `(a, b) => b.sum - a.sum`
(App.tsx line 105): `a` may precede `b` exactly when `b.sum ≤ a.sum`. -/
def rowLE (a b : Row) : Prop :=
  b.sum ≤ a.sum

instance : DecidableRel rowLE :=
  fun a b => inferInstanceAs (Decidable (b.sum ≤ a.sum))

instance : IsTotal Row rowLE :=
  ⟨fun a b => le_total b.sum a.sum⟩

instance : IsTrans Row rowLE :=
  ⟨fun _ _ _ hab hbc => le_trans hbc hab⟩

/-- The `rows` returned by the `useMemo` (App.tsx lines 105-106): the unsorted
rows stably sorted with the descending-`sum` comparator. -/
def rows (ps : List Product) : List Row :=
  List.insertionSort rowLE (preRows ps)

/-- The non-empty category labels of a product list in order of first
appearance, skipping labels already seen (this characterises the key order
of the insertion-ordered map built by the aggregation loop). -/
def mapKeysAfter (seen : List String) : List String → List String
  | [] => []
  | c :: cs => if c = "" ∨ c ∈ seen then mapKeysAfter seen cs
               else c :: mapKeysAfter (seen ++ [c]) cs

/-- The distinct non-empty categories of the product list, in order of
first appearance. -/
def firstAppearanceCats (ps : List Product) : List String :=
  mapKeysAfter [] (ps.map (fun p => p.category))

/-- JavaScript whitespace (the characters relevant to form input). -/
def isJSWhitespace (c : Char) : Bool :=
  c == ' ' || c == '\t' || c == '\n' || c == '\r'

/-- JavaScript `String.prototype.trim`: strip leading and trailing
whitespace.  Modelled over the character list of the string. -/
def jsTrim (s : String) : String :=
  ⟨((s.data.dropWhile isJSWhitespace).reverse.dropWhile isJSWhitespace).reverse⟩

/-- The `addCategory` handler (App.tsx lines 125-131): trim, reject empty, reject
duplicates (case-sensitive `includes`), otherwise append. -/
def addCategory (cats : List String) (label : String) : List String :=
  let trimmed := jsTrim label
  if trimmed = "" then cats
  else if trimmed ∈ cats then cats
  else cats ++ [trimmed]

/-- The fixed default category set (App.tsx lines 77 and 136). -/
def defaultCategories : List String :=
  ["Xitoy", "O\x27zbekiston"]

/-- The `resetAll` handler (App.tsx lines 133-137); the result of the blocking
`confirm` dialog is the boolean argument. -/
def resetAll (confirmed : Bool) (ps : List Product) (cats : List String) :
    List Product × List String :=
  if confirmed then ([], defaultCategories) else (ps, cats)

/-- The `removeRow` handler (App.tsx lines 115-116): `prev.filter((p) => p.id !== id)`. -/
def removeRow (i : String) (ps : List Product) : List Product :=
  ps.filter (fun p => p.id ≠ i)

/-- A `Partial<Product>` patch: every field optional. -/
structure Patch where
  id : Option String
  name : Option String
  qty : Option NumVal
  price : Option NumVal
  category : Option String
deriving DecidableEq

/-- The spread `{ ...p, ...patch }` (App.tsx line 120): fields present in
the patch override, absent fields keep the record's value. -/
def applyPatch (p : Product) (patch : Patch) : Product :=
  { id := patch.id.getD p.id
    name := patch.name.getD p.name
    qty := patch.qty.getD p.qty
    price := patch.price.getD p.price
    category := patch.category.getD p.category }

/-- The `updateRow` handler (App.tsx lines 118-121):
`prev.map((p) => (p.id === id ? { ...p, ...patch } : p))`. -/
def updateRow (i : String) (patch : Patch) (ps : List Product) : List Product :=
  ps.map (fun p => if p.id = i then applyPatch p patch else p)

/-- The `loadLS` helper (App.tsx lines 50-58): `getItem` returns `none` when the key
is absent; `!raw` is also true for the empty string; a throwing
`JSON.parse` (modelled by `parse raw = none`) is caught and yields the
fallback. -/
def loadLS {α : Type} (parse : String → Option α) (store : String → Option String)
    (key : String) (fallback : α) : α :=
  match store key with
  | none => fallback
  | some raw =>
    if raw = "" then fallback
    else
      match parse raw with
      | none => fallback
      | some v => v

/-! Concrete fixtures used by the witness theorems. -/

/-- A product list with one categorised product (qty 1 × price 2). -/
def psOne : List Product :=
  [⟨"a", "Telefon", .num 1, .num 2, "A"⟩]

/-- A product list where one product has no category: its line total counts
towards the total revenue but towards no row. -/
def psMixed : List Product :=
  [⟨"a", "", .num 1, .num 1, ""⟩, ⟨"b", "", .num 1, .num 1, "A"⟩]

/-- A patch that only sets the name. -/
def patchName : Patch :=
  ⟨none, some "Non", none, none, none⟩

/-- A toy parse function for the persistence witness. -/
def parseNat42 : String → Option Nat :=
  fun s => if s = "42" then some 42 else none

/-- A toy backing store for the persistence witness. -/
def storeK : String → Option String :=
  fun k => if k = "k" then some "42" else none

/-! ### Helper lemmas -/

/-- The first component of the aggregation loop accumulates the sum of all
line totals, starting from the initial accumulator. -/
theorem foldl_stepAgg_fst (ps : List Product) :
    ∀ acc : ℚ × List (String × ℚ),
      (ps.foldl stepAgg acc).1 = acc.1 + (ps.map lineTotal).sum := by
  induction ps with
  | nil => intro acc; simp
  | cons p ps ih =>
    intro acc
    rw [List.foldl_cons, ih]
    by_cases h : p.category = "" <;>
      simp [stepAgg, h, add_assoc]

/-- The total revenue is the sum of the line totals. -/
theorem totalSum_eq_sum (ps : List Product) :
    totalSum ps = (ps.map lineTotal).sum := by
  have h := foldl_stepAgg_fst ps (0, [])
  simpa [totalSum, aggregate] using h

/-- Updating a key of the map with `(map.get(k) ?? 0) + s` increases the sum
of the stored values by exactly `s`. -/
theorem mapSet_snd_sum (m : List (String × ℚ)) (k : String) (s : ℚ) :
    ((mapSet m k ((mapGet m k).getD 0 + s)).map Prod.snd).sum
      = (m.map Prod.snd).sum + s := by
  induction m with
  | nil => simp [mapSet, mapGet]
  | cons e rest ih =>
    obtain ⟨k₀, v₀⟩ := e
    by_cases h : k₀ = k
    · subst h
      simp [mapSet, mapGet]
      ring
    · simp [mapSet, mapGet, h, ih]
      ring

/-- The sum of the map values accumulated by the aggregation loop is the sum
of the line totals of the products that carry a category. -/
theorem foldl_stepAgg_snd_sum (ps : List Product) :
    ∀ acc : ℚ × List (String × ℚ),
      (((ps.foldl stepAgg acc).2).map Prod.snd).sum
        = (acc.2.map Prod.snd).sum
          + ((ps.filter (fun p => p.category ≠ "")).map lineTotal).sum := by
  induction ps with
  | nil => intro acc; simp
  | cons p ps ih =>
    intro acc
    rw [List.foldl_cons, ih]
    by_cases h : p.category = ""
    · simp [stepAgg, h]
    · simp [stepAgg, h, mapSet_snd_sum]
      ring

/-- Sorting does not change the multiset of rows, hence not the sum of any
field over them. -/
theorem rows_map_sum_eq (ps : List Product) (f : Row → ℚ) :
    ((rows ps).map f).sum = ((preRows ps).map f).sum :=
  ((List.perm_insertionSort rowLE (preRows ps)).map f).sum_eq

/-- The `sum` fields of the unsorted rows are exactly the map values. -/
theorem preRows_map_sum (ps : List Product) :
    ((preRows ps).map Row.sum).sum = (((aggregate ps).2).map Prod.snd).sum := by
  simp [preRows, mkRows, List.map_map]
  rfl

/-- C1: for every product list, the total revenue equals the sum over all
records of quantity × price, where a non-numeric (NaN) quantity or price is
treated as zero; in particular the empty product list yields total 0. -/
theorem totalSum_is_sum_of_products (ps : List Product) :
    totalSum ps = (ps.map (fun p => p.qty.orZero * p.price.orZero)).sum ∧
    NumVal.nan.orZero = 0 ∧
    totalSum [] = 0 :=
  ⟨totalSum_eq_sum ps, rfl, rfl⟩

/-- C2: every produced row's share is subtotal / total × 100 when the total
revenue is positive, and 0 when the total revenue is zero. -/
theorem rows_share_formula (ps : List Product) (r : Row) (hr : r ∈ rows ps) :
    (0 < totalSum ps → r.share = r.sum / totalSum ps * 100) ∧
    (totalSum ps = 0 → r.share = 0) := by
  have hr' : r ∈ List.insertionSort rowLE (preRows ps) := hr
  have hmem : r ∈ preRows ps :=
    (List.perm_insertionSort rowLE (preRows ps)).mem_iff.mp hr'
  simp only [preRows, mkRows, List.mem_map] at hmem
  obtain ⟨e, _, hre⟩ := hmem
  constructor
  · intro hpos
    rw [← hre]
    simp [if_pos hpos]
  · intro h0
    have hneg : ¬ (0 < totalSum ps) := by rw [h0]; exact lt_irrefl 0
    rw [← hre]
    simp [hneg]

/-- Witness for C2 on the one-product fixture. -/
theorem rows_share_formula_witness :
    (⟨"A", 2, 100⟩ : Row).share = (⟨"A", 2, 100⟩ : Row).sum / totalSum psOne * 100 := by
  have hrows : rows psOne = [⟨"A", 2, 100⟩] := by
    simp [rows, preRows, mkRows, totalSum, aggregate, stepAgg, lineTotal, NumVal.orZero,
      psOne, mapGet, mapSet, List.insertionSort]
  have hmem : (⟨"A", 2, 100⟩ : Row) ∈ rows psOne := by
    rw [hrows]; exact List.mem_singleton.mpr rfl
  have hpos : 0 < totalSum psOne := by
    simp [totalSum, aggregate, stepAgg, lineTotal, NumVal.orZero, psOne, mapGet, mapSet]
  exact (rows_share_formula psOne ⟨"A", 2, 100⟩ hmem).1 hpos

/-- Setting an existing key leaves the key list of the map unchanged. -/
theorem mapSet_keys_mem (m : List (String × ℚ)) (k : String) (v : ℚ)
    (h : k ∈ m.map Prod.fst) :
    (mapSet m k v).map Prod.fst = m.map Prod.fst := by
  induction m with
  | nil => simp at h
  | cons e rest ih =>
    obtain ⟨k₀, v₀⟩ := e
    simp only [List.map_cons, List.mem_cons] at h
    by_cases hk : k₀ = k
    · subst hk
      simp [mapSet]
    · rcases h with h | h
      · exact absurd h.symm hk
      · simp [mapSet, hk, ih h]

/-- Setting a fresh key appends it at the end of the key list. -/
theorem mapSet_keys_notMem (m : List (String × ℚ)) (k : String) (v : ℚ)
    (h : k ∉ m.map Prod.fst) :
    (mapSet m k v).map Prod.fst = m.map Prod.fst ++ [k] := by
  induction m with
  | nil => simp [mapSet]
  | cons e rest ih =>
    obtain ⟨k₀, v₀⟩ := e
    by_cases hk : k₀ = k
    · subst hk
      simp at h
    · simp only [List.map_cons, List.mem_cons] at h
      push_neg at h
      simp [mapSet, hk, ih h.2]

/-- The key list of the map built by the aggregation loop lists the distinct
non-empty categories in order of first appearance, after the keys already in
the accumulator. -/
theorem foldl_stepAgg_keys (ps : List Product) :
    ∀ acc : ℚ × List (String × ℚ),
      ((ps.foldl stepAgg acc).2).map Prod.fst
        = acc.2.map Prod.fst
          ++ mapKeysAfter (acc.2.map Prod.fst) (ps.map (fun p => p.category)) := by
  induction ps with
  | nil => intro acc; simp [mapKeysAfter]
  | cons p ps ih =>
    intro acc
    rw [List.foldl_cons, List.map_cons, ih]
    by_cases h : p.category = ""
    · simp [stepAgg, h, mapKeysAfter]
    · by_cases hm : p.category ∈ acc.2.map Prod.fst
      · simp [stepAgg, h, hm, mapKeysAfter, mapSet_keys_mem]
      · simp [stepAgg, h, hm, mapKeysAfter, mapSet_keys_notMem, List.append_assoc]

/-- The categories of the unsorted rows are the distinct non-empty
categories of the product list in order of first appearance. -/
theorem preRows_cats (ps : List Product) :
    (preRows ps).map Row.cat = firstAppearanceCats ps := by
  have h := foldl_stepAgg_keys ps (0, [])
  have h2 : (preRows ps).map Row.cat = ((aggregate ps).2).map Prod.fst := by
    simp [preRows, mkRows, List.map_map]
  rw [h2]
  simpa [aggregate, firstAppearanceCats] using h

/-- Inserting a row with the descending-`sum` relation does not change the
subsequence of rows having any fixed `sum` value: rows of strictly larger
`sum` are passed over, and the inserted row lands before every row of
smaller or equal `sum`. -/
theorem filter_sum_orderedInsert (s : ℚ) (x : Row) (l : List Row) :
    (List.orderedInsert rowLE x l).filter (fun r => r.sum = s)
      = ((x :: l).filter (fun r => r.sum = s)) := by
  induction l with
  | nil => rfl
  | cons y ys ih =>
    by_cases hxy : rowLE x y
    · simp only [List.orderedInsert, if_pos hxy]
    · simp only [List.orderedInsert, if_neg hxy]
      by_cases hx : x.sum = s
      · have hy : ¬ (y.sum = s) := by
          intro hy
          exact hxy (le_of_eq (hy.trans hx.symm))
        simp [List.filter_cons, hx, hy, ih]
      · simp [List.filter_cons, hx, ih]

/-- Stability of the sort: the subsequence of rows having any fixed `sum`
value is unchanged by the sort. -/
theorem filter_sum_insertionSort (s : ℚ) (l : List Row) :
    (List.insertionSort rowLE l).filter (fun r => r.sum = s)
      = l.filter (fun r => r.sum = s) := by
  induction l with
  | nil => rfl
  | cons x xs ih =>
    simp only [List.insertionSort]
    rw [filter_sum_orderedInsert]
    by_cases hx : x.sum = s <;> simp [List.filter_cons, hx, ih]

/-- The sorted rows are pairwise (hence adjacently) descending in `sum`. -/
theorem rows_chain_descending (ps : List Product) :
    List.Chain' (fun a b : Row => b.sum ≤ a.sum) (rows ps) :=
  (List.sorted_insertionSort rowLE (preRows ps)).chain'

/-- C3: the aggregator's rows are sorted by subtotal descending (adjacent
rows `(a, b)` satisfy `a.sum ≥ b.sum`); the sort is stable (rows of equal
subtotal keep the order they have in the unsorted row list), and the
unsorted row list is keyed by the categories in order of first appearance
in the product list. -/
theorem rows_sorted_descending_stable (ps : List Product) :
    List.Chain' (fun a b : Row => b.sum ≤ a.sum) (rows ps) ∧
    (∀ s : ℚ, (rows ps).filter (fun r => r.sum = s)
      = (preRows ps).filter (fun r => r.sum = s)) ∧
    (preRows ps).map Row.cat = firstAppearanceCats ps :=
  ⟨rows_chain_descending ps,
   fun s => filter_sum_insertionSort s (preRows ps),
   preRows_cats ps⟩

/-- With a positive total, the shares of the built rows sum to the sum of
the map values divided by the total, times 100. -/
theorem mkRows_share_sum (t : ℚ) (ht : 0 < t) (m : List (String × ℚ)) :
    ((mkRows t m).map Row.share).sum = (m.map Prod.snd).sum / t * 100 := by
  induction m with
  | nil => simp [mkRows]
  | cons e rest ih =>
    simp only [mkRows, List.map_cons, List.sum_cons, if_pos ht] at ih ⊢
    rw [ih]
    ring

/-- C4 counterexample: in `psMixed` the uncategorised product contributes
to the total revenue but to no row, so the total is positive and the row
set non-empty, yet the shares sum to 50 rather than 100. -/
theorem shares_sum_100_counterexample :
    0 < totalSum psMixed ∧ rows psMixed ≠ [] ∧
      ((rows psMixed).map Row.share).sum ≠ 100 := by
  have hrows : rows psMixed = [⟨"A", 1, 50⟩] := by
    simp [rows, preRows, mkRows, totalSum, aggregate, stepAgg, lineTotal, NumVal.orZero,
      psMixed, mapGet, mapSet, List.insertionSort]
    norm_num
  refine ⟨?_, ?_, ?_⟩
  · simp [totalSum, aggregate, stepAgg, lineTotal, NumVal.orZero, psMixed, mapGet, mapSet]
  · rw [hrows]
    simp
  · rw [hrows]
    norm_num

/-- C4 (amended): for every product list in which every product has a
non-empty category, if the total revenue is positive then the shares of the
rows sum to exactly 100. -/
theorem shares_sum_100 (ps : List Product)
    (hcat : ∀ p ∈ ps, p.category ≠ "") (hpos : 0 < totalSum ps) :
    ((rows ps).map Row.share).sum = 100 := by
  rw [rows_map_sum_eq ps Row.share]
  rw [show preRows ps = mkRows (totalSum ps) (aggregate ps).2 from rfl]
  rw [mkRows_share_sum (totalSum ps) hpos]
  have hv : (((aggregate ps).2).map Prod.snd).sum = totalSum ps := by
    have h := foldl_stepAgg_snd_sum ps (0, [])
    have hfil : ps.filter (fun p => p.category ≠ "") = ps :=
      List.filter_eq_self.mpr (fun p hp => by simpa using hcat p hp)
    simp only [List.map_nil, List.sum_nil, zero_add] at h
    rw [hfil] at h
    rw [totalSum_eq_sum]
    exact h
  rw [hv, div_self (ne_of_gt hpos), one_mul]

/-- Witness for C4 (amended) on the one-product fixture. -/
theorem shares_sum_100_witness : ((rows psOne).map Row.share).sum = 100 := by
  have hpos : 0 < totalSum psOne := by
    simp [totalSum, aggregate, stepAgg, lineTotal, NumVal.orZero, psOne, mapGet, mapSet]
  exact shares_sum_100 psOne (by decide) hpos

/-- C10: the sum of the row subtotals equals the summed line totals of
exactly the products with a non-empty category; when every product has one,
it equals the total revenue. -/
theorem rowSums_eq_categorised_revenue (ps : List Product) :
    ((rows ps).map Row.sum).sum
      = ((ps.filter (fun p => p.category ≠ "")).map lineTotal).sum ∧
    ((∀ p ∈ ps, p.category ≠ "") → ((rows ps).map Row.sum).sum = totalSum ps) := by
  have h1 : ((rows ps).map Row.sum).sum
      = ((ps.filter (fun p => p.category ≠ "")).map lineTotal).sum := by
    rw [rows_map_sum_eq ps Row.sum, preRows_map_sum]
    have h := foldl_stepAgg_snd_sum ps (0, [])
    simpa [aggregate] using h
  refine ⟨h1, fun hall => ?_⟩
  rw [h1, totalSum_eq_sum,
    List.filter_eq_self.mpr (fun p hp => by simpa using hall p hp)]

/-- Witness for C10 on the one-product fixture. -/
theorem rowSums_eq_categorised_revenue_witness :
    ((rows psOne).map Row.sum).sum = totalSum psOne :=
  (rowSums_eq_categorised_revenue psOne).2 (by decide)

/-- C5: `addCategory` trims the label, is a no-op on an empty or duplicate
trimmed label, and otherwise appends the trimmed label at the end; calling
it twice with the same fresh label leaves exactly one matching entry. -/
theorem addCategory_spec (cats : List String) (label : String) :
    (jsTrim label = "" → addCategory cats label = cats) ∧
    (jsTrim label ∈ cats → addCategory cats label = cats) ∧
    (jsTrim label ≠ "" → jsTrim label ∉ cats →
      addCategory cats label = cats ++ [jsTrim label]) ∧
    (jsTrim label ≠ "" → jsTrim label ∉ cats →
      (addCategory (addCategory cats label) label).count (jsTrim label) = 1) := by
  refine ⟨fun h => by simp [addCategory, h], ?_, ?_, ?_⟩
  · intro h
    by_cases h0 : jsTrim label = "" <;> simp [addCategory, h0, h]
  · intro h0 hmem
    simp [addCategory, h0, hmem]
  · intro h0 hmem
    have h1 : addCategory cats label = cats ++ [jsTrim label] := by
      simp [addCategory, h0, hmem]
    have h2 : addCategory (cats ++ [jsTrim label]) label = cats ++ [jsTrim label] := by
      simp [addCategory, h0]
    rw [h1, h2, List.count_append, List.count_eq_zero.mpr hmem]
    simp [List.count_singleton]

/-- Witness for C5: adding `" X "` twice to `["A"]`. -/
theorem addCategory_spec_witness :
    addCategory ["A"] " X " = ["A", "X"] ∧
    (addCategory (addCategory ["A"] " X ") " X ").count "X" = 1 := by
  have h1 := (addCategory_spec ["A"] " X ").2.2.1 (by decide) (by decide)
  have h2 := (addCategory_spec ["A"] " X ").2.2.2 (by decide) (by decide)
  have ht : jsTrim " X " = "X" := by decide
  rw [ht] at h1 h2
  exact ⟨h1, h2⟩

/-- C6: a confirmed reset replaces the product list by the empty list and
the categories by the fixed two-element default; a declined reset leaves
both unchanged. -/
theorem resetAll_spec (ps : List Product) (cats : List String) :
    resetAll true ps cats = ([], defaultCategories) ∧
    defaultCategories.length = 2 ∧
    resetAll false ps cats = (ps, cats) :=
  ⟨rfl, rfl, rfl⟩

/-- C7: `removeRow` keeps no record with the given id, keeps every other
record with its values and relative order (it produces a sublist), and is a
no-op when no record has the id. -/
theorem removeRow_spec (i : String) (ps : List Product) :
    (∀ p ∈ removeRow i ps, p.id ≠ i) ∧
    (removeRow i ps).Sublist ps ∧
    (∀ p ∈ ps, p.id ≠ i → p ∈ removeRow i ps) ∧
    ((∀ p ∈ ps, p.id ≠ i) → removeRow i ps = ps) := by
  refine ⟨?_, ?_, ?_, ?_⟩
  · intro p hp
    have h := List.of_mem_filter hp
    simpa using h
  · exact List.filter_sublist ps
  · intro p hp hne
    exact List.mem_filter.mpr ⟨hp, by simpa using hne⟩
  · intro h
    exact List.filter_eq_self.mpr (fun p hp => by simpa using h p hp)

/-- Witness for C7: removing an absent id is a no-op. -/
theorem removeRow_spec_witness : removeRow "zz" psOne = psOne :=
  (removeRow_spec "zz" psOne).2.2.2 (by decide)

/-- C8: `updateRow` preserves the list length; positions holding a record
with a different id are untouched; the position holding the matching record
receives the merged record; with no matching record the list is unchanged;
and fields absent from the patch are kept by the merge. -/
theorem updateRow_spec (i : String) (patch : Patch) (ps : List Product) :
    (updateRow i patch ps).length = ps.length ∧
    (∀ (n : ℕ) (p : Product), ps[n]? = some p → p.id ≠ i →
      (updateRow i patch ps)[n]? = some p) ∧
    (∀ (n : ℕ) (p : Product), ps[n]? = some p → p.id = i →
      (updateRow i patch ps)[n]? = some (applyPatch p patch)) ∧
    ((∀ p ∈ ps, p.id ≠ i) → updateRow i patch ps = ps) ∧
    (patch.id = none → ∀ p, (applyPatch p patch).id = p.id) ∧
    (patch.name = none → ∀ p, (applyPatch p patch).name = p.name) ∧
    (patch.qty = none → ∀ p, (applyPatch p patch).qty = p.qty) ∧
    (patch.price = none → ∀ p, (applyPatch p patch).price = p.price) ∧
    (patch.category = none → ∀ p, (applyPatch p patch).category = p.category) := by
  refine ⟨?_, ?_, ?_, ?_, ?_, ?_, ?_, ?_, ?_⟩
  · simp [updateRow]
  · intro n p hn hne
    simp [updateRow, List.getElem?_map, hn, hne]
  · intro n p hn heq
    simp [updateRow, List.getElem?_map, hn, heq]
  · intro h
    calc updateRow i patch ps
        = ps.map id := List.map_congr_left (fun p hp => by simp [h p hp])
      _ = ps := List.map_id ps
  · intro h p
    simp [applyPatch, h]
  · intro h p
    simp [applyPatch, h]
  · intro h p
    simp [applyPatch, h]
  · intro h p
    simp [applyPatch, h]
  · intro h p
    simp [applyPatch, h]

/-- Witness for C8: a name-only patch aimed at an absent id is a no-op, and
the merge keeps unlisted fields. -/
theorem updateRow_spec_witness :
    updateRow "zz" patchName psOne = psOne ∧
    (applyPatch ⟨"a", "Telefon", .num 1, .num 2, "A"⟩ patchName).qty = NumVal.num 1 := by
  refine ⟨(updateRow_spec "zz" patchName psOne).2.2.2.1 (by decide), ?_⟩
  exact (updateRow_spec "zz" patchName psOne).2.2.2.2.2.2.1 (by decide)
    ⟨"a", "Telefon", .num 1, .num 2, "A"⟩

/-- C9: `loadLS` returns the parsed snapshot when the stored string parses,
and the fallback exactly on the failure paths (absent key, or a parse
failure, which is swallowed: the function returns normally in every case).
The hypothesis states that the parse function rejects the empty string, as
`JSON.parse("")` throws. -/
theorem loadLS_spec {α : Type} (parse : String → Option α)
    (store : String → Option String) (key : String) (fallback : α)
    (hp : parse "" = none) :
    (store key = none → loadLS parse store key fallback = fallback) ∧
    (∀ raw, store key = some raw → parse raw = none →
      loadLS parse store key fallback = fallback) ∧
    (∀ raw v, store key = some raw → parse raw = some v →
      loadLS parse store key fallback = v) := by
  refine ⟨?_, ?_, ?_⟩
  · intro h
    simp [loadLS, h]
  · intro raw hr hparse
    by_cases h0 : raw = "" <;> simp [loadLS, hr, h0, hparse]
  · intro raw v hr hparse
    have h0 : raw ≠ "" := by
      intro h
      rw [h, hp] at hparse
      exact Option.noConfusion hparse
    simp [loadLS, hr, h0, hparse]

/-- Witness for C9 on the toy store and parse function. -/
theorem loadLS_spec_witness : loadLS parseNat42 storeK "k" 0 = 42 :=
  (loadLS_spec parseNat42 storeK "k" 0 (by decide)).2.2 "42" 42 (by decide) (by decide)

end MedCalc
